import Mathlib

/-!
Verification of the member status/points state machine of a Telegram
accountability bot (single source file `main.py`).

The database table `members` is modelled as a `List Member` (the list order
is the unspecified order in which a full scan presents the rows).  Calendar
dates are modelled as `Int` day numbers, so "yesterday" is `today - 1`.
Machine times of day are modelled as seconds since midnight (`Nat`) in the
fixed civil timezone.  Columns that may be SQL NULL are `Option`s; the
Python idiom `row[c] or 0` becomes `Option.getD 0`.  The `last_updated`
column is observability-only (never read by any logic) and is omitted.
Store-connection failure (`get_db_connection()` returning `None`) is
modelled by a `connOk : Bool` argument; a possible exception while
executing the per-row UPDATE of the nightly sweep is modelled by a
`failSet` of user ids whose update raises.
-/

/-- One row of the `members` table (without the logic-free `last_updated`). -/
structure Member where
  user_id : Int
  username : Option String
  submission_status : Option String
  target_count : Int
  points : Option Int
  streak : Option Int
  last_completed_date : Option Int
deriving DecidableEq, Repr

/-- Boolean predicate for `WHERE user_id = u`. -/
def uidP (u : Int) (m : Member) : Bool := decide (m.user_id = u)

/-- `add_member`: INSERT a Pending row, ON CONFLICT (user_id) update only the
username (schema defaults: target_count 0, points 0, streak 0, null date).
Returns `false` and no mutation when the connection fails. -/
def add_member (connOk : Bool) (u : Int) (uname : String) (tbl : List Member) :
    Bool × List Member :=
  if connOk then
    if tbl.any (uidP u) then
      (true, tbl.map (fun m => if m.user_id = u then { m with username := some uname } else m))
    else
      (true, tbl ++ [{ user_id := u, username := some uname,
                       submission_status := some "Pending", target_count := 0,
                       points := some 0, streak := some 0,
                       last_completed_date := none }])
  else (false, tbl)

/-- `fetch_member`: point SELECT by primary key; `none` on connection failure. -/
def fetch_member (connOk : Bool) (u : Int) (tbl : List Member) : Option Member :=
  if connOk then tbl.find? (uidP u) else none

/-- `update_submission_status`: UPDATE submission_status WHERE user_id = u. -/
def update_submission_status (connOk : Bool) (u : Int) (st : String)
    (tbl : List Member) : Bool × List Member :=
  if connOk then
    (true, tbl.map (fun m => if m.user_id = u then { m with submission_status := some st } else m))
  else (false, tbl)

/-- The status-only UPDATE performed by `mark_completed` when the member
already completed today. -/
def completeStatusOnly (u : Int) (tbl : List Member) : List Member :=
  tbl.map (fun m => if m.user_id = u then { m with submission_status := some "Completed" } else m)

/-- The scoring UPDATE performed by `mark_completed`: status Completed,
target_count + 1, and the freshly computed points/streak/date. -/
def completeAward (u today newPoints newStreak : Int) (tbl : List Member) : List Member :=
  tbl.map (fun m =>
    if m.user_id = u then
      { m with submission_status := some "Completed",
               target_count := m.target_count + 1,
               points := some newPoints,
               streak := some newStreak,
               last_completed_date := some today }
    else m)

/-- `mark_completed`: the completion-award transaction of `main.py`.
Fetches the row; inserts a fresh Completed row (username "Unknown") when
absent; is a scoring no-op except for the status write when
`last_completed_date` is already today; otherwise awards 10 points plus a
5-point bonus (and streak increment) exactly when the last completion was
yesterday. -/
def mark_completed (connOk : Bool) (u : Int) (today : Int) (tbl : List Member) :
    Bool × List Member :=
  if connOk then
    match tbl.find? (uidP u) with
    | none =>
        (true, tbl ++ [{ user_id := u, username := some "Unknown",
                         submission_status := some "Completed", target_count := 1,
                         points := some 10, streak := some 1,
                         last_completed_date := some today }])
    | some row =>
        let existing_points := row.points.getD 0
        let existing_streak := row.streak.getD 0
        if row.last_completed_date = some today then
          (true, completeStatusOnly u tbl)
        else
          let bonus : Int := if row.last_completed_date = some (today - 1) then 5 else 0
          let new_streak : Int :=
            if row.last_completed_date = some (today - 1) then existing_streak + 1 else 1
          let new_points := existing_points + (10 + bonus)
          (true, completeAward u today new_points new_streak tbl)
  else (false, tbl)

/-- Sort key of `get_all_members`: the tuple `((points or 0), (streak or 0))`. -/
def memberKey (m : Member) : Int × Int := (m.points.getD 0, m.streak.getD 0)

/-- Lexicographic `≤` on sort keys. -/
def keyLe (p q : Int × Int) : Bool :=
  decide (p.1 < q.1) || (decide (p.1 = q.1) && decide (p.2 ≤ q.2))

/-- Stable insertion used to model Python's stable `sorted`. -/
def stableInsert (r : Member → Member → Bool) (x : Member) : List Member → List Member
  | [] => [x]
  | y :: ys => if r x y then x :: y :: ys else y :: stableInsert r x ys

/-- Stable sort (ties keep presentation order), modelling Python's `sorted`. -/
def stableSort (r : Member → Member → Bool) : List Member → List Member
  | [] => []
  | x :: xs => stableInsert r x (stableSort r xs)

/-- `get_all_members`: full scan, then Python
`sorted(rows, key=(points, streak), reverse=True)` — a stable descending
sort on `memberKey` alone; ties keep the order in which the scan presented
the rows.  Returns `[]` on connection failure. -/
def get_all_members (connOk : Bool) (tbl : List Member) : List Member :=
  if connOk then stableSort (fun a b => keyLe (memberKey b) (memberKey a)) tbl
  else []

/-- Display name appended to the sweep's missed list:
`uname if uname else str(uid)` (both NULL and the empty string fall back). -/
def displayName (m : Member) : String :=
  match m.username with
  | some s => if s = "" then toString m.user_id else s
  | none => toString m.user_id

/-- Effect of the sweep's UPDATE on one stored row `m`: rows of the snapshot
row `r`'s user id get the deduction (points computed from `r`, the snapshot
fetched before the loop), streak reset, and Missed status. -/
def sweepUpdOne (r m : Member) : Member :=
  if m.user_id = r.user_id then
    { m with points := some (max 0 (r.points.getD 0 - 5)), streak := some 0,
             submission_status := some "Missed" }
  else m

/-- The per-row UPDATE of the sweep applied to the working table. -/
def sweepRowUpdate (r : Member) (tbl : List Member) : List Member :=
  tbl.map (sweepUpdOne r)

/-- The re-fetch `SELECT last_completed_date WHERE user_id = u` done inside
the sweep loop (reads the transaction's own uncommitted updates). -/
def lastOf (tbl : List Member) (u : Int) : Option Int :=
  (tbl.find? (uidP u)).bind (fun m => m.last_completed_date)

/-- The sweep loop over the snapshot of rows.  `none` models an exception
raised by the UPDATE of a row whose user id is in `failSet`; the exception
propagates out of the loop. -/
def sweepGo (failSet : List Int) (today : Int) :
    List Member → List Member → List String → Nat →
    Option (List String × Nat × List Member)
  | [], work, missed, updated => some (missed, updated, work)
  | r :: rest, work, missed, updated =>
    if lastOf work r.user_id = some today then
      sweepGo failSet today rest work missed updated
    else if failSet.any (fun v => decide (v = r.user_id)) then
      none
    else
      sweepGo failSet today rest (sweepRowUpdate r work)
        (missed ++ [displayName r]) (updated + 1)

/-- `apply_missed_deductions_and_reset`: fetch all rows, loop, then COMMIT.
On connection failure, or when the loop raises (caught by the function's
single try/except), it returns `([], 0)`; in the exception case the
transaction was never committed, so closing the connection rolls every
row update of this sweep back and the table is unchanged. -/
def apply_missed_deductions_and_reset (connOk : Bool) (failSet : List Int)
    (today : Int) (tbl : List Member) : (List String × Nat) × List Member :=
  if connOk then
    match sweepGo failSet today tbl tbl [] 0 with
    | some (missed, updated, work) => ((missed, updated), work)
    | none => (([], 0), tbl)
  else (([], 0), tbl)

/-- Replies the photo handler can send. -/
inductive Reply where
  | planReceived
  | proofReceived
  | completionError
  | askCaption
  | windowClosed
deriving DecidableEq, Repr

/-- Substring test on character lists (`needle in hay` in Python). -/
def hasSub (needle : List Char) : List Char → Bool
  | [] => needle.isEmpty
  | c :: cs => needle.isPrefixOf (c :: cs) || hasSub needle cs

/-- Caption test of the night branch:
`(caption or "").lower()` contains one of the three accepted phrases. -/
def captionOk (caption : Option String) : Bool :=
  let c := (caption.getD "").toLower.toList
  hasSub "today target completed".toList c ||
  hasSub "today target complete".toList c ||
  hasSub "target completed".toList c

/-- Morning window test `time(5,0) <= t <= time(9,0)` in seconds of day. -/
def inMorningWindow (tsec : Nat) : Bool :=
  decide (18000 ≤ tsec) && decide (tsec ≤ 32400)

/-- Night window test `time(21,0) <= t <= time(23,0)` in seconds of day. -/
def inNightWindow (tsec : Nat) : Bool :=
  decide (75600 ≤ tsec) && decide (tsec ≤ 82800)

/-- `handle_photo_message`: ignores non-group chats; otherwise always calls
`add_member` first, then branches on the current time: morning window sets
status Planned, night window checks the caption and awards completion,
anything else only sends the window-closed reply.  Message text composition
is out of scope; the reply is returned as a `Reply` value. -/
def handle_photo_message (connOk : Bool) (u : Int) (uname : String)
    (chatId groupChatId : Int) (tsec : Nat) (caption : Option String)
    (today : Int) (tbl : List Member) : List Member × Option Reply :=
  if chatId ≠ groupChatId then (tbl, none)
  else
    let tbl1 := (add_member connOk u uname tbl).2
    if inMorningWindow tsec then
      ((update_submission_status connOk u "Planned" tbl1).2, some Reply.planReceived)
    else if inNightWindow tsec then
      if captionOk caption then
        let res := mark_completed connOk u today tbl1
        (res.2, some (if res.1 then Reply.proofReceived else Reply.completionError))
      else (tbl1, some Reply.askCaption)
    else (tbl1, some Reply.windowClosed)

/-- A scoring operation on the member table: a completion award or a
nightly sweep (with its connection flag and, for the sweep, the set of
rows whose update raises). -/
inductive StoreOp where
  | award (connOk : Bool) (u : Int) (today : Int)
  | sweep (connOk : Bool) (failSet : List Int) (today : Int)

/-- Apply one scoring operation to the table. -/
def runOp (tbl : List Member) (op : StoreOp) : List Member :=
  match op with
  | .award c u d => (mark_completed c u d tbl).2
  | .sweep c fs d => (apply_missed_deductions_and_reset c fs d tbl).2

/-- Apply a finite sequence of scoring operations. -/
def runOps (tbl : List Member) (ops : List StoreOp) : List Member :=
  ops.foldl runOp tbl

/-- Rows of the snapshot that had not completed today. -/
def missedRows (today : Int) (tbl : List Member) : List Member :=
  tbl.filter (fun m => !(decide (m.last_completed_date = some today)))

/-- What the sweep writes to a row that had not completed today. -/
def sweptMember (m : Member) : Member :=
  { m with points := some (max 0 (m.points.getD 0 - 5)), streak := some 0,
           submission_status := some "Missed" }

/-- Per-row effect of a successful full sweep. -/
def sweepResultRow (today : Int) (m : Member) : Member :=
  if m.last_completed_date = some today then m else sweptMember m

/-! ### Helper lemmas -/

/-- find? for a uid predicate commutes with mapping a uid-preserving function. -/
theorem find?_uidP_map (u : Int) (f : Member → Member)
    (hf : ∀ m, (f m).user_id = m.user_id) (tbl : List Member) :
    (tbl.map f).find? (uidP u) = (tbl.find? (uidP u)).map f := by
  induction tbl with
  | nil => rfl
  | cons a l ih =>
    simp only [List.map_cons, List.find?]
    have hpa : uidP u (f a) = uidP u a := by simp [uidP, hf]
    rw [hpa]
    cases h : uidP u a <;> simp [ih]

/-- A status write of "Completed" to a row already Completed is the identity. -/
theorem status_write_id (m : Member) (h : m.submission_status = some "Completed") :
    ({ m with submission_status := some "Completed" } : Member) = m := by
  cases m
  simp_all

/-! ### C9 -/

/-- C9: when the store connection cannot be obtained, every Member Store
operation (ensure/get/setStatus/awardCompletion/listAll/sweepMissed)
returns its error or empty value and leaves the member table untouched. -/
theorem store_unavailable_no_mutation (u : Int) (uname st : String) (today : Int)
    (failSet : List Int) (tbl : List Member) :
    add_member false u uname tbl = (false, tbl) ∧
    fetch_member false u tbl = none ∧
    update_submission_status false u st tbl = (false, tbl) ∧
    mark_completed false u today tbl = (false, tbl) ∧
    get_all_members false tbl = [] ∧
    apply_missed_deductions_and_reset false failSet today tbl = (([], 0), tbl) :=
  ⟨rfl, rfl, rfl, rfl, rfl, rfl⟩

/-! ### C8 -/

/-- C8: when no row exists for the user, `mark_completed` appends exactly one
row already Completed with target_count 1, points 10, streak 1 and
last_completed_date today, and reports success. -/
theorem award_creates_completed_row (u today : Int) (tbl : List Member)
    (h : tbl.find? (uidP u) = none) :
    mark_completed true u today tbl =
      (true, tbl ++ [{ user_id := u, username := some "Unknown",
                       submission_status := some "Completed", target_count := 1,
                       points := some 10, streak := some 1,
                       last_completed_date := some today }]) := by
  simp [mark_completed, h]

/-- Witness for C8 at a concrete input. -/
theorem award_creates_completed_row_witness :
    mark_completed true 5 3 [] =
      (true, [⟨5, some "Unknown", some "Completed", 1, some 10, some 1, some 3⟩]) :=
  award_creates_completed_row 5 3 [] rfl

/-! ### C10 -/

/-- C10: the row created by `mark_completed` for a previously unseen user
carries the literal username "Unknown", not the caller's display name. -/
theorem award_missing_row_username_unknown (u today : Int) (tbl : List Member)
    (h : tbl.find? (uidP u) = none) :
    ∀ m ∈ (mark_completed true u today tbl).2, m.user_id = u →
      m.username = some "Unknown" := by
  intro m hm hmu
  simp only [mark_completed, if_true, h] at hm
  rcases List.mem_append.mp hm with hold | hnew
  · have hno := List.find?_eq_none.mp h m hold
    simp [uidP] at hno
    exact absurd hmu hno
  · rcases List.mem_singleton.mp hnew with rfl
    rfl

/-- Witness for C10 at a concrete input. -/
theorem award_missing_row_username_unknown_witness :
    (⟨5, some "Unknown", some "Completed", 1, some 10, some 1, some 3⟩ : Member).username =
      some "Unknown" :=
  award_missing_row_username_unknown 5 3 [] rfl
    ⟨5, some "Unknown", some "Completed", 1, some 10, some 1, some 3⟩
    (by decide) (by decide)

/-! ### C1 -/

/-- C1: for an existing member row, completing with yesterday's date on file
increments the streak and adds exactly 15 points; with a null date or any
date earlier than yesterday the streak is set to 1 and exactly 10 points
are added; in both cases the status becomes Completed, target_count is
incremented and last_completed_date becomes today (the `completeAward`
update). -/
theorem award_streak_and_points (u today : Int) (tbl : List Member) (row : Member)
    (h : tbl.find? (uidP u) = some row) :
    (row.last_completed_date = some (today - 1) →
       mark_completed true u today tbl =
         (true, completeAward u today (row.points.getD 0 + 15)
                  (row.streak.getD 0 + 1) tbl)) ∧
    ((row.last_completed_date = none ∨
        ∃ d, row.last_completed_date = some d ∧ d < today - 1) →
       mark_completed true u today tbl =
         (true, completeAward u today (row.points.getD 0 + 10) 1 tbl)) := by
  constructor
  · intro hy
    have hne : ¬ row.last_completed_date = some today := by
      rw [hy]
      intro hc
      have := Option.some.inj hc
      omega
    have h15 : row.points.getD 0 + (10 + 5) = row.points.getD 0 + 15 := by ring
    simp [mark_completed, h, hne, hy, h15]
  · intro hc
    have hne : ¬ row.last_completed_date = some today := by
      rcases hc with hn | ⟨d, hd, hlt⟩
      · simp [hn]
      · rw [hd]
        intro hx
        have := Option.some.inj hx
        omega
    have hny : ¬ row.last_completed_date = some (today - 1) := by
      rcases hc with hn | ⟨d, hd, hlt⟩
      · simp [hn]
      · rw [hd]
        intro hx
        have := Option.some.inj hx
        omega
    simp [mark_completed, h, hne, hny]

/-- Witness for C1: both branches at concrete inputs. -/
theorem award_streak_and_points_witness :
    mark_completed true 1 5 [⟨1, some "alice", some "Pending", 3, some 20, some 2, some 4⟩] =
      (true, [⟨1, some "alice", some "Completed", 4, some 35, some 3, some 5⟩]) ∧
    mark_completed true 2 5 [⟨2, some "bob", some "Pending", 0, some 10, some 2, none⟩] =
      (true, [⟨2, some "bob", some "Completed", 1, some 20, some 1, some 5⟩]) := by
  constructor
  · exact ((award_streak_and_points 1 5
        [⟨1, some "alice", some "Pending", 3, some 20, some 2, some 4⟩]
        ⟨1, some "alice", some "Pending", 3, some 20, some 2, some 4⟩ rfl).1
        (by decide)).trans (by decide)
  · exact ((award_streak_and_points 2 5
        [⟨2, some "bob", some "Pending", 0, some 10, some 2, none⟩]
        ⟨2, some "bob", some "Pending", 0, some 10, some 2, none⟩ rfl).2
        (Or.inl rfl)).trans (by decide)

/-! ### C2 -/

/-- Common shape of both UPDATE branches of `mark_completed`: after mapping a
uid-preserving function that writes Completed status to the user's rows and
leaves today's date on the fetched row, the user's row is found with today's
date, and every row of the user has status Completed. -/
theorem map_award_post (u today : Int) (tbl : List Member) (row : Member)
    (hf : tbl.find? (uidP u) = some row)
    (f : Member → Member)
    (huid : ∀ m, (f m).user_id = m.user_id)
    (hst : ∀ m, m.user_id = u → (f m).submission_status = some "Completed")
    (hlast : (f row).last_completed_date = some today) :
    (∃ r, (tbl.map f).find? (uidP u) = some r ∧
       r.last_completed_date = some today) ∧
    (∀ m ∈ tbl.map f, m.user_id = u → m.submission_status = some "Completed") := by
  constructor
  · exact ⟨f row, by rw [find?_uidP_map u f huid, hf]; rfl, hlast⟩
  · intro m hm hmu
    rcases List.mem_map.mp hm with ⟨m0, hm0, rfl⟩
    exact hst m0 (by rw [← huid m0]; exact hmu)

/-- When the user's row is on file with today's date, `mark_completed` only
rewrites the status. -/
theorem mark_completed_same_day (u today : Int) (t : List Member) (r : Member)
    (hr : t.find? (uidP u) = some r) (hrl : r.last_completed_date = some today) :
    mark_completed true u today t = (true, completeStatusOnly u t) := by
  simp [mark_completed, hr, hrl]

/-- After any successful completion award, the user's row is on file with
last_completed_date = today, and all of the user's rows are Completed. -/
theorem mark_completed_post (u today : Int) (tbl : List Member) :
    (∃ r, (mark_completed true u today tbl).2.find? (uidP u) = some r ∧
       r.last_completed_date = some today) ∧
    (∀ m ∈ (mark_completed true u today tbl).2, m.user_id = u →
       m.submission_status = some "Completed") := by
  cases hf : tbl.find? (uidP u) with
  | none =>
    simp only [mark_completed, if_true, hf]
    constructor
    · refine ⟨{ user_id := u, username := some "Unknown",
                submission_status := some "Completed", target_count := 1,
                points := some 10, streak := some 1,
                last_completed_date := some today }, ?_, rfl⟩
      rw [List.find?_append, hf]
      simp [uidP]
    · intro m hm hmu
      rcases List.mem_append.mp hm with hold | hnew
      · have hno := List.find?_eq_none.mp hf m hold
        simp [uidP] at hno
        exact absurd hmu hno
      · rcases List.mem_singleton.mp hnew with rfl
        rfl
  | some row =>
    have hrow : row.user_id = u := by
      have := List.find?_some hf
      simpa [uidP] using this
    by_cases hlt : row.last_completed_date = some today
    · simp only [mark_completed, if_true, hf, if_pos hlt]
      exact map_award_post u today tbl row hf _
        (fun m => by by_cases hmu : m.user_id = u <;> simp [hmu])
        (fun m hmu => by simp [hmu])
        (by simp [hrow, hlt])
    · simp only [mark_completed, if_true, hf, if_neg hlt]
      exact map_award_post u today tbl row hf _
        (fun m => by by_cases hmu : m.user_id = u <;> simp [completeAward, hmu])
        (fun m hmu => by simp [completeAward, hmu])
        (by simp [completeAward, hrow])

/-- C2: re-submitting the same day is a scoring no-op but the status write
still occurs: a second `mark_completed` on the same day returns success and
leaves the table exactly as after the first call, and the user's status is
Completed after both calls. -/
theorem award_idempotent_same_day (u today : Int) (tbl : List Member) :
    mark_completed true u today (mark_completed true u today tbl).2 =
      (true, (mark_completed true u today tbl).2) ∧
    (∀ m ∈ (mark_completed true u today tbl).2, m.user_id = u →
       m.submission_status = some "Completed") := by
  obtain ⟨⟨r, hr, hrl⟩, hst⟩ := mark_completed_post u today tbl
  refine ⟨?_, hst⟩
  have h2 : completeStatusOnly u (mark_completed true u today tbl).2 =
      (mark_completed true u today tbl).2 := by
    unfold completeStatusOnly
    conv_rhs => rw [← List.map_id (mark_completed true u today tbl).2]
    refine List.map_congr_left (fun m hm => ?_)
    by_cases hmu : m.user_id = u
    · rw [if_pos hmu]
      exact status_write_id m (hst m hm hmu)
    · rw [if_neg hmu]
      rfl
  rw [mark_completed_same_day u today _ r hr hrl, h2]

/-- Witness for C2 at a concrete input. -/
theorem award_idempotent_same_day_witness :
    mark_completed true 1 5
        (mark_completed true 1 5
          [⟨1, some "alice", some "Pending", 3, some 20, some 2, some 4⟩]).2 =
      (true, (mark_completed true 1 5
          [⟨1, some "alice", some "Pending", 3, some 20, some 2, some 4⟩]).2) ∧
    (⟨1, some "alice", some "Completed", 4, some 35, some 3, some 5⟩ : Member).submission_status =
      some "Completed" :=
  ⟨(award_idempotent_same_day 1 5
      [⟨1, some "alice", some "Pending", 3, some 20, some 2, some 4⟩]).1,
   (award_idempotent_same_day 1 5
      [⟨1, some "alice", some "Pending", 3, some 20, some 2, some 4⟩]).2
      ⟨1, some "alice", some "Completed", 4, some 35, some 3, some 5⟩
      (by decide) (by decide)⟩

/-! ### C4 -/

/-- `mark_completed` preserves non-negativity of every points value. -/
theorem mark_completed_points_nonneg (c : Bool) (u d : Int) (tbl : List Member)
    (h : ∀ m ∈ tbl, 0 ≤ m.points.getD 0) :
    ∀ m ∈ (mark_completed c u d tbl).2, 0 ≤ m.points.getD 0 := by
  cases c with
  | false => exact h
  | true =>
    cases hf : tbl.find? (uidP u) with
    | none =>
      simp only [mark_completed, if_true, hf]
      intro m hm
      rcases List.mem_append.mp hm with hold | hnew
      · exact h m hold
      · rcases List.mem_singleton.mp hnew with rfl
        norm_num
    | some row =>
      have hrowmem := List.mem_of_find?_eq_some hf
      have hrowpts := h row hrowmem
      by_cases hlt : row.last_completed_date = some d
      · simp only [mark_completed, if_true, hf, if_pos hlt]
        intro m hm
        rcases List.mem_map.mp hm with ⟨m0, hm0, rfl⟩
        by_cases hmu : m0.user_id = u
        · simpa [hmu] using h m0 hm0
        · simpa [hmu] using h m0 hm0
      · simp only [mark_completed, if_true, hf, if_neg hlt]
        intro m hm
        rcases List.mem_map.mp hm with ⟨m0, hm0, rfl⟩
        by_cases hmu : m0.user_id = u
        · simp only [completeAward, hmu, if_pos]
          by_cases hb : row.last_completed_date = some (d - 1) <;>
            simp [hb] <;> omega
        · simpa [completeAward, hmu] using h m0 hm0

/-- The sweep loop preserves non-negativity of every points value of the
working table. -/
theorem sweepGo_points_nonneg (fs : List Int) (d : Int) :
    ∀ (snap work : List Member) (ms : List String) (n : Nat)
      (out : List String × Nat × List Member),
    sweepGo fs d snap work ms n = some out →
    (∀ w ∈ work, 0 ≤ w.points.getD 0) →
    ∀ w ∈ out.2.2, 0 ≤ w.points.getD 0 := by
  intro snap
  induction snap with
  | nil =>
    intro work ms n out hout hw
    simp only [sweepGo] at hout
    cases hout
    exact hw
  | cons r rest ih =>
    intro work ms n out hout hw
    simp only [sweepGo] at hout
    by_cases h1 : lastOf work r.user_id = some d
    · rw [if_pos h1] at hout
      exact ih work ms n out hout hw
    · rw [if_neg h1] at hout
      by_cases h2 : fs.any (fun v => decide (v = r.user_id)) = true
      · rw [if_pos h2] at hout
        cases hout
      · rw [if_neg h2] at hout
        refine ih _ _ _ out hout ?_
        intro w hwmem
        rcases List.mem_map.mp hwmem with ⟨w0, hw0, rfl⟩
        by_cases hwu : w0.user_id = r.user_id
        · rw [sweepUpdOne, if_pos hwu]
          simp
        · rw [sweepUpdOne, if_neg hwu]
          exact hw w0 hw0

/-- `apply_missed_deductions_and_reset` preserves non-negativity of every
points value. -/
theorem apply_missed_points_nonneg (c : Bool) (fs : List Int) (d : Int)
    (tbl : List Member) (h : ∀ m ∈ tbl, 0 ≤ m.points.getD 0) :
    ∀ m ∈ (apply_missed_deductions_and_reset c fs d tbl).2, 0 ≤ m.points.getD 0 := by
  cases c with
  | false => exact h
  | true =>
    cases hout : sweepGo fs d tbl tbl [] 0 with
    | none => simpa [apply_missed_deductions_and_reset, hout] using h
    | some out =>
      have := sweepGo_points_nonneg fs d tbl tbl [] 0 out hout h
      simpa [apply_missed_deductions_and_reset, hout] using this

/-- C4: starting from any table whose points are all non-negative, any finite
sequence of completion awards and nightly sweeps keeps every member's points
non-negative. -/
theorem points_never_negative (ops : List StoreOp) (tbl : List Member)
    (h : ∀ m ∈ tbl, 0 ≤ m.points.getD 0) :
    ∀ m ∈ runOps tbl ops, 0 ≤ m.points.getD 0 := by
  induction ops generalizing tbl with
  | nil => exact h
  | cons op ops ih =>
    rw [runOps, List.foldl_cons]
    refine ih (runOp tbl op) ?_
    cases op with
    | award c u d => exact mark_completed_points_nonneg c u d tbl h
    | sweep c fs d => exact apply_missed_points_nonneg c fs d tbl h

/-- Witness for C4 at a concrete input: one award then one sweep. -/
theorem points_never_negative_witness :
    (0 : Int) ≤ (⟨1, some "alice", some "Missed", 4, some 30, some 0,
                   some 5⟩ : Member).points.getD 0 :=
  points_never_negative [.award true 1 5, .sweep true [] 6]
    [⟨1, some "alice", some "Pending", 3, some 20, some 2, some 4⟩]
    (by decide) _ (by decide)


/-! ### C3 -/

/-- The sweep's one-row UPDATE never changes a row's user id. -/
theorem sweepUpdOne_uid (r m : Member) : (sweepUpdOne r m).user_id = m.user_id := by
  rw [sweepUpdOne]
  split <;> rfl

/-- On the snapshot row itself the sweep's UPDATE writes `sweptMember`. -/
theorem sweepUpdOne_self (r : Member) : sweepUpdOne r r = sweptMember r := by
  rw [sweepUpdOne, if_pos rfl]
  rfl

/-- Rows of a different user id are untouched by the sweep's UPDATE. -/
theorem sweepUpdOne_noop (r m : Member) (h : ¬ m.user_id = r.user_id) :
    sweepUpdOne r m = m := by
  rw [sweepUpdOne, if_neg h]

/-- If the working table has a row for `r`'s user id and every such row is
`r` itself, the loop's re-fetch of `last_completed_date` returns `r`'s. -/
theorem lastOf_eq (work : List Member) (r : Member)
    (hP : ∃ w ∈ work, w.user_id = r.user_id)
    (hK : ∀ w ∈ work, w.user_id = r.user_id → w = r) :
    lastOf work r.user_id = r.last_completed_date := by
  obtain ⟨w, hw, hwu⟩ := hP
  have hs : (work.find? (uidP r.user_id)).isSome := by
    rw [List.find?_isSome]
    exact ⟨w, hw, by simp [uidP, hwu]⟩
  obtain ⟨w0, hw0⟩ := Option.isSome_iff_exists.mp hs
  have hmem := List.mem_of_find?_eq_some hw0
  have hp := List.find?_some hw0
  have hwr : w0 = r := hK w0 hmem (by simpa [uidP] using hp)
  simp [lastOf, hw0, hwr]

/-- The sweep's row UPDATE preserves the presence of every user id. -/
theorem sweepRowUpdate_exists (r : Member) (work : List Member) (m : Member)
    (h : ∃ w ∈ work, w.user_id = m.user_id) :
    ∃ w ∈ sweepRowUpdate r work, w.user_id = m.user_id := by
  obtain ⟨w, hw, hwu⟩ := h
  exact ⟨sweepUpdOne r w, List.mem_map_of_mem _ hw, (sweepUpdOne_uid r w).trans hwu⟩

/-- The sweep's row UPDATE of the head row keeps every remaining snapshot
row uniquely represented in the working table. -/
theorem sweepRowUpdate_unique (r : Member) (work rest : List Member)
    (hK : ∀ m ∈ r :: rest, ∀ w ∈ work, w.user_id = m.user_id → w = m)
    (hNr : r.user_id ∉ rest.map (fun m => m.user_id)) :
    ∀ m ∈ rest, ∀ w ∈ sweepRowUpdate r work, w.user_id = m.user_id → w = m := by
  intro m hm w' hw' hwu'
  rcases List.mem_map.mp hw' with ⟨w, hw, rfl⟩
  rw [sweepUpdOne_uid] at hwu'
  by_cases hwr : w.user_id = r.user_id
  · exfalso
    refine hNr (List.mem_map.mpr ⟨m, hm, ?_⟩)
    rw [← hwu', hwr]
  · rw [sweepUpdOne_noop r w hwr]
    exact hK m (List.mem_cons_of_mem r hm) w hw hwu'

/-- A successful sweep loop (no row failure) returns the accumulated missed
names and count extended by the not-completed-today snapshot rows, and the
working table with exactly those user ids rewritten by the sweep UPDATE. -/
theorem sweepGo_success (today : Int) :
    ∀ (snap work : List Member) (missed : List String) (updated : Nat),
    (∀ m ∈ snap, ∃ w ∈ work, w.user_id = m.user_id) →
    (∀ m ∈ snap, ∀ w ∈ work, w.user_id = m.user_id → w = m) →
    (snap.map (fun m => m.user_id)).Nodup →
    sweepGo [] today snap work missed updated =
      some (missed ++ (missedRows today snap).map displayName,
            updated + (missedRows today snap).length,
            work.map (fun w =>
              if snap.any (fun m => decide (m.user_id = w.user_id) &&
                  !(decide (m.last_completed_date = some today)))
              then sweptMember w else w)) := by
  intro snap
  induction snap with
  | nil =>
    intro work missed updated hP hK hN
    simp [sweepGo, missedRows]
  | cons r rest ih =>
    intro work missed updated hP hK hN
    rw [List.map_cons, List.nodup_cons] at hN
    obtain ⟨hNr, hNrest⟩ := hN
    have hld : lastOf work r.user_id = r.last_completed_date :=
      lastOf_eq work r (hP r (List.mem_cons_self r rest))
        (fun w hw hwu => hK r (List.mem_cons_self r rest) w hw hwu)
    by_cases hr : r.last_completed_date = some today
    · simp only [sweepGo]
      rw [if_pos (by rw [hld]; exact hr)]
      rw [ih work missed updated
        (fun m hm => hP m (List.mem_cons_of_mem r hm))
        (fun m hm => hK m (List.mem_cons_of_mem r hm)) hNrest]
      have hmr : missedRows today (r :: rest) = missedRows today rest := by
        simp [missedRows, List.filter_cons, hr]
      have hfun : (fun w : Member =>
          if (r :: rest).any (fun m => decide (m.user_id = w.user_id) &&
              !(decide (m.last_completed_date = some today)))
          then sweptMember w else w) = (fun w : Member =>
          if rest.any (fun m => decide (m.user_id = w.user_id) &&
              !(decide (m.last_completed_date = some today)))
          then sweptMember w else w) := by
        funext w
        simp [List.any_cons, hr]
      rw [hmr, hfun]
    · simp only [sweepGo]
      rw [if_neg (by rw [hld]; exact hr)]
      rw [if_neg (by simp)]
      rw [ih (sweepRowUpdate r work) (missed ++ [displayName r]) (updated + 1)
        (fun m hm => sweepRowUpdate_exists r work m (hP m (List.mem_cons_of_mem r hm)))
        (sweepRowUpdate_unique r work rest hK hNr) hNrest]
      have hmr : missedRows today (r :: rest) = r :: missedRows today rest := by
        simp [missedRows, List.filter_cons, hr]
      have h_rK : ∀ w ∈ work, w.user_id = r.user_id → w = r :=
        fun w hw hwu => hK r (List.mem_cons_self r rest) w hw hwu
      have htbl : (sweepRowUpdate r work).map (fun w : Member =>
          if rest.any (fun m => decide (m.user_id = w.user_id) &&
              !(decide (m.last_completed_date = some today)))
          then sweptMember w else w) = work.map (fun w : Member =>
          if (r :: rest).any (fun m => decide (m.user_id = w.user_id) &&
              !(decide (m.last_completed_date = some today)))
          then sweptMember w else w) := by
        rw [sweepRowUpdate, List.map_map]
        refine List.map_congr_left (fun w hw => ?_)
        rw [Function.comp_apply]
        by_cases hwr : w.user_id = r.user_id
        · have hweq : w = r := h_rK w hw hwr
          subst hweq
          rw [sweepUpdOne_self]
          have hany : rest.any (fun m => decide (m.user_id = (sweptMember w).user_id) &&
              !(decide (m.last_completed_date = some today))) = false := by
            rw [List.any_eq_false]
            intro m hm
            simp only [Bool.and_eq_true, decide_eq_true_eq, not_and]
            intro hmu _
            exact hNr (List.mem_map.mpr ⟨m, hm, hmu⟩)
          rw [hany]
          have hc : (w :: rest).any (fun m => decide (m.user_id = w.user_id) &&
              !(decide (m.last_completed_date = some today))) = true := by
            rw [List.any_cons]
            simp [hr]
          rw [hc]
          simp
        · rw [sweepUpdOne_noop r w hwr]
          have hrw : ¬ (r.user_id = w.user_id) := fun h => hwr h.symm
          simp [List.any_cons, hrw]
      rw [hmr, htbl]
      simp only [Option.some.injEq, Prod.mk.injEq, List.map_cons, List.length_cons]
      refine ⟨?_, ?_, trivial⟩
      · simp [List.append_assoc]
      · omega

/-- C3: after a sweep on a table with unique user ids, every row that had
not completed today is swept (streak 0, status Missed, points floored
deduction) and every row completed today is untouched; the returned pair is
the affected display names and the affected row count. -/
theorem sweep_missed_correct (today : Int) (tbl : List Member)
    (hN : (tbl.map (fun m => m.user_id)).Nodup) :
    apply_missed_deductions_and_reset true [] today tbl =
      (((missedRows today tbl).map displayName, (missedRows today tbl).length),
       tbl.map (sweepResultRow today)) := by
  have hK : ∀ m ∈ tbl, ∀ w ∈ tbl, w.user_id = m.user_id → w = m :=
    fun m hm w hw h => List.inj_on_of_nodup_map hN hw hm h
  have hmain := sweepGo_success today tbl tbl [] 0 (fun m hm => ⟨m, hm, rfl⟩) hK hN
  have htbl : tbl.map (fun w : Member =>
      if tbl.any (fun m => decide (m.user_id = w.user_id) &&
          !(decide (m.last_completed_date = some today)))
      then sweptMember w else w) = tbl.map (sweepResultRow today) := by
    refine List.map_congr_left (fun w hw => ?_)
    by_cases hwl : w.last_completed_date = some today
    · have hany : tbl.any (fun m => decide (m.user_id = w.user_id) &&
          !(decide (m.last_completed_date = some today))) = false := by
        rw [List.any_eq_false]
        intro m hm
        simp only [Bool.and_eq_true, decide_eq_true_eq, Bool.not_eq_true',
          decide_eq_false_iff_not, not_and]
        intro hmu hml
        exact hml (by rw [hK w hw m hm hmu]; exact hwl)
      rw [hany, sweepResultRow, if_pos hwl]
      simp
    · have hany : tbl.any (fun m => decide (m.user_id = w.user_id) &&
          !(decide (m.last_completed_date = some today))) = true :=
        List.any_eq_true.mpr ⟨w, hw, by simp [hwl]⟩
      rw [hany, sweepResultRow, if_neg hwl]
      simp
  rw [apply_missed_deductions_and_reset, if_pos rfl, hmain]
  rw [htbl]
  simp

/-- Witness for C3 at a concrete input. -/
theorem sweep_missed_correct_witness :
    apply_missed_deductions_and_reset true [] 4
        [⟨1, some "alice", some "Pending", 3, some 20, some 2, some 4⟩,
         ⟨2, some "bob", some "Pending", 0, some 10, some 2, none⟩] =
      ((["bob"], 1),
       [⟨1, some "alice", some "Pending", 3, some 20, some 2, some 4⟩,
        ⟨2, some "bob", some "Missed", 0, some 5, some 0, none⟩]) :=
  (sweep_missed_correct 4
    [⟨1, some "alice", some "Pending", 3, some 20, some 2, some 4⟩,
     ⟨2, some "bob", some "Pending", 0, some 10, some 2, none⟩]
    (by decide)).trans (by decide)

/-! ### C7 -/

/-- If some snapshot row that had not completed today has its user id in the
failure set, the sweep loop raises (returns `none`): the first such row it
reaches fails before any later row is processed. -/
theorem sweepGo_fails (fs : List Int) (today : Int) :
    ∀ (snap work : List Member),
    (∀ m ∈ snap, ∃ w ∈ work, w.user_id = m.user_id) →
    (∀ m ∈ snap, ∀ w ∈ work, w.user_id = m.user_id → w = m) →
    (snap.map (fun m => m.user_id)).Nodup →
    (∃ m ∈ snap, m.user_id ∈ fs ∧ ¬ m.last_completed_date = some today) →
    ∀ missed updated, sweepGo fs today snap work missed updated = none := by
  intro snap
  induction snap with
  | nil =>
    rintro work _ _ _ ⟨m, hm, _⟩
    simp at hm
  | cons r rest ih =>
    intro work hP hK hN hEx missed updated
    rw [List.map_cons, List.nodup_cons] at hN
    obtain ⟨hNr, hNrest⟩ := hN
    have hld : lastOf work r.user_id = r.last_completed_date :=
      lastOf_eq work r (hP r (List.mem_cons_self r rest))
        (fun w hw hwu => hK r (List.mem_cons_self r rest) w hw hwu)
    obtain ⟨m, hm, hmf, hml⟩ := hEx
    rcases List.mem_cons.mp hm with rfl | hmrest
    · simp only [sweepGo]
      rw [if_neg (by rw [hld]; exact hml)]
      rw [if_pos (List.any_eq_true.mpr ⟨m.user_id, hmf, by simp⟩)]
    · by_cases hr : r.last_completed_date = some today
      · simp only [sweepGo]
        rw [if_pos (by rw [hld]; exact hr)]
        exact ih work
          (fun x hx => hP x (List.mem_cons_of_mem r hx))
          (fun x hx => hK x (List.mem_cons_of_mem r hx)) hNrest
          ⟨m, hmrest, hmf, hml⟩ missed updated
      · simp only [sweepGo]
        rw [if_neg (by rw [hld]; exact hr)]
        by_cases hf2 : fs.any (fun v => decide (v = r.user_id)) = true
        · rw [if_pos hf2]
        · rw [if_neg hf2]
          exact ih (sweepRowUpdate r work)
            (fun x hx => sweepRowUpdate_exists r work x (hP x (List.mem_cons_of_mem r hx)))
            (sweepRowUpdate_unique r work rest hK hNr) hNrest
            ⟨m, hmrest, hmf, hml⟩ _ _

/-- C7 (amended): a failure while updating one row does not log-and-continue;
it aborts the whole sweep.  The function returns `([], 0)` and, because the
transaction commits only after the loop, every row update of the sweep is
rolled back: the table is returned unchanged. -/
theorem sweep_row_failure_aborts (fs : List Int) (today : Int) (tbl : List Member)
    (hN : (tbl.map (fun m => m.user_id)).Nodup)
    (hEx : ∃ m ∈ tbl, m.user_id ∈ fs ∧ ¬ m.last_completed_date = some today) :
    apply_missed_deductions_and_reset true fs today tbl = (([], 0), tbl) := by
  have hK : ∀ m ∈ tbl, ∀ w ∈ tbl, w.user_id = m.user_id → w = m :=
    fun m hm w hw h => List.inj_on_of_nodup_map hN hw hm h
  have hnone := sweepGo_fails fs today tbl tbl (fun m hm => ⟨m, hm, rfl⟩) hK hN hEx [] 0
  rw [apply_missed_deductions_and_reset, if_pos rfl, hnone]

/-- Witness for C7's amended statement at a concrete input. -/
theorem sweep_row_failure_aborts_witness :
    apply_missed_deductions_and_reset true [1] 5
        [⟨1, some "alice", some "Pending", 3, some 20, some 2, some 4⟩] =
      (([], 0), [⟨1, some "alice", some "Pending", 3, some 20, some 2, some 4⟩]) :=
  sweep_row_failure_aborts [1] 5
    [⟨1, some "alice", some "Pending", 3, some 20, some 2, some 4⟩]
    (by decide) (by decide)

/-- Counterexample to C7 as stated: with two not-completed rows and a
failure on the second row's UPDATE, the claim says the first row is still
penalized and keeps its update; the code instead returns `([], 0)` and the
whole table unchanged — the first row's deduction is lost too. -/
theorem sweep_row_failure_loses_prior_updates :
    apply_missed_deductions_and_reset true [2] 5
        [⟨1, some "alice", some "Pending", 3, some 20, some 2, some 4⟩,
         ⟨2, some "bob", some "Pending", 0, some 10, some 2, none⟩] =
      (([], 0),
       [⟨1, some "alice", some "Pending", 3, some 20, some 2, some 4⟩,
        ⟨2, some "bob", some "Pending", 0, some 10, some 2, none⟩]) := by decide

/-! ### C5 -/

/-- C5 (code bug): `get_all_members` sorts only by `(points, streak)` with a
stable sort, so two presentations of the same two tied rows come back in
their respective presentation orders — the result is not the same sequence
for all permutations, contradicting the docstring's
"points DESC, streak DESC, username ASC" ordering. -/
theorem leaderboard_tie_order_depends_on_scan :
    get_all_members true
        [⟨2, some "bob", some "Pending", 0, some 10, some 2, none⟩,
         ⟨3, some "carl", none, 0, some 10, some 2, none⟩] ≠
      get_all_members true
        [⟨3, some "carl", none, 0, some 10, some 2, none⟩,
         ⟨2, some "bob", some "Pending", 0, some 10, some 2, none⟩] := by decide

/-! ### C6 -/

/-- Counterexample to C6 as stated: a photo sent at 12:00 (outside both
windows) by an unseen user does change the member table — a Pending row is
created by the unconditional `add_member` call that precedes the window
check. -/
theorem photo_outside_windows_creates_row :
    (handle_photo_message true 9 "dina" 7 7 43200 none 5 []).1 ≠ [] := by decide

/-- C6 (amended): for a group-chat photo strictly outside both submission
windows, the handler's only table effect is the unconditional
`add_member` (create-or-touch); no status, points, streak or completion
change is made, and the window-closed reply is sent. -/
theorem photo_outside_windows_only_ensures (connOk : Bool) (u : Int)
    (uname : String) (chatId groupChatId : Int) (tsec : Nat)
    (caption : Option String) (today : Int) (tbl : List Member)
    (hchat : chatId = groupChatId)
    (hm : inMorningWindow tsec = false) (hn : inNightWindow tsec = false) :
    handle_photo_message connOk u uname chatId groupChatId tsec caption today tbl =
      ((add_member connOk u uname tbl).2, some Reply.windowClosed) := by
  simp [handle_photo_message, hchat, hm, hn]

/-- Witness for C6's amended statement at a concrete input. -/
theorem photo_outside_windows_only_ensures_witness :
    handle_photo_message true 9 "dina" 7 7 43200 none 5
        [⟨1, some "alice", some "Pending", 3, some 20, some 2, some 4⟩] =
      ((add_member true 9 "dina"
          [⟨1, some "alice", some "Pending", 3, some 20, some 2, some 4⟩]).2,
       some Reply.windowClosed) :=
  photo_outside_windows_only_ensures true 9 "dina" 7 7 43200 none 5
    [⟨1, some "alice", some "Pending", 3, some 20, some 2, some 4⟩]
    rfl (by decide) (by decide)
